import Mathlib

/-!
# Verification of the saar transcript-chunking / retrieval-aggregation core

Shallow embedding of the algorithmic core of the repository:

* `chunk_transcript_by_time` (src/fetch_youtube_data.py) — the time-window
  chunker;
* `aggregate_search_results` (src/generate_newsletter.py) — the multi-keyword
  retrieval aggregator;
* `replace_citations_with_video_clips` / `format_article_for_whatsapp`
  (src/generate_newsletter.py) — the citation resolver (shared scan logic);
* `split_message_intelligently` (src/generate_newsletter.py) — the message
  segmenter.

Python floats are modelled as rationals (`ℚ`): every claim under scrutiny is
about ordering, comparison and exact boundary logic, all of which the source
performs with the literal comparison operators; no rounding behaviour is at
stake.  Python strings are modelled as `List Char` (Python `len` counts code
points, matching `List.length`).
-/

set_option allowUnsafeReducibility true
attribute [semireducible] Rat.add Rat.mul Rat.sub

namespace Saar

/-! ## Time-window chunker (src/fetch_youtube_data.py, `chunk_transcript_by_time`)

The source iterates `current_chunk_start = 0, d, 2d, ...` while
`current_chunk_start <= max_end_time`, emitting for each window the snippets
whose half-open interval overlaps it.  For `d > 0` the loop visits exactly the
windows `i = 0, 1, ...` with `i*d ≤ max_end_time`, i.e. `i ≤ ⌊max_end_time/d⌋`
when `max_end_time ≥ 0` and none at all when `max_end_time < 0`; the window
visited at iteration `i` has start `i*d` (exact in ℚ).  The definition below
renders the loop as a `filterMap` over that range of window indices. -/

/-- A transcript snippet: `{text, start_time, duration}` dictionaries in the
source. -/
structure Snippet where
  text : String
  start_time : ℚ
  duration : ℚ
deriving DecidableEq, Repr

/-- A produced chunk: `{text, start_time, end_time, snippets}` dictionaries in
the source. -/
structure Chunk where
  text : String
  start_time : ℚ
  end_time : ℚ
  snippets : List Snippet
deriving DecidableEq, Repr

/-- The snippet's end time: `snippet['start_time'] + snippet['duration']`. -/
def snippetEnd (s : Snippet) : ℚ := s.start_time + s.duration

/-- Binary maximum on ℚ, phrased with `if` so that it evaluates inside the
kernel; `ratMax_eq` identifies it with `max`. -/
def ratMax (a b : ℚ) : ℚ := if a ≤ b then b else a

/-- The transcript's extent `max(snippet['start_time'] + snippet['duration'])`.
Python's `max` requires a non-empty iterable; the source only evaluates it
after the empty-input early return, so the `[]` case here is dead code. -/
def maxEndTime : List Snippet → ℚ
  | [] => 0
  | s :: rest => rest.foldl (fun m t => ratMax m (snippetEnd t)) (snippetEnd s)

/-- Python `' '.join(texts)`. -/
def joinSpace : List String → String
  | [] => ""
  | [s] => s
  | s :: rest => s ++ " " ++ joinSpace rest

/-- The snippets collected for the window `[wstart, wend)`: the source keeps
`snippet` iff `snippet_start < chunk_end and snippet_end > current_chunk_start`,
preserving input order (`for snippet in transcript_data`). -/
def snippetsInWindow (data : List Snippet) (wstart wend : ℚ) : List Snippet :=
  data.filter (fun s => decide (s.start_time < wend) && decide (wstart < snippetEnd s))

/-- The loop body for window index `i` (window `[i*d, i*d + d)`): emit a chunk
only if some snippet overlaps the window (`if snippets_in_chunk:`). -/
def mkChunk (data : List Snippet) (d : ℚ) (i : ℕ) : Option Chunk :=
  let wstart : ℚ := i * d
  let wend : ℚ := wstart + d
  let snips := snippetsInWindow data wstart wend
  if snips.isEmpty then none
  else some ⟨joinSpace (snips.map (·.text)), wstart, wend, snips⟩

/-- The quotient `a / b` of two rationals, phrased via `Rat.divInt` so that it
evaluates inside the kernel; `ratDiv_eq` identifies it with `a / b`. -/
def ratDiv (a b : ℚ) : ℚ := Rat.divInt (a.num * b.den) (b.num * a.den)

/-- Number of loop iterations: the indices `i` with `i*d ≤ M` (for `d > 0`),
which is `⌊M/d⌋ + 1` when `M ≥ 0` and `0` when `M < 0`. -/
def numWindows (M d : ℚ) : ℕ :=
  if M < 0 then 0 else (Rat.floor (ratDiv M d) + 1).toNat

/-- The chunker `chunk_transcript_by_time(transcript_data, chunk_duration)` from
src/fetch_youtube_data.py, for `chunk_duration > 0` (with `chunk_duration ≤ 0`
the source's `while` loop does not terminate, so no claim concerns it). -/
def chunk_transcript_by_time (data : List Snippet) (d : ℚ) : List Chunk :=
  if data.isEmpty then []
  else (List.range (numWindows (maxEndTime data) d)).filterMap (mkChunk data d)

/-- Spec-side notion used by claim C4: the snippets of a chunk reordered by
`start_time` ascending (stable insertion sort), i.e. "temporal order". -/
def insertByStart (s : Snippet) : List Snippet → List Snippet
  | [] => [s]
  | t :: l => if t.start_time ≤ s.start_time then t :: insertByStart s l else s :: t :: l

/-- Stable sort of snippets by ascending `start_time` (spec-side, for C4). -/
def sortByStart : List Snippet → List Snippet
  | [] => []
  | s :: rest => insertByStart s (sortByStart rest)

/-- C5 witness input. -/
def dataW : List Snippet := [⟨"hello", 5, 10⟩, ⟨"world", 40, 5⟩]

/-! ### Claim C4 — chunk text order

The source builds `combined_text = ' '.join(s['text'] for s in snippets_in_chunk)`
where `snippets_in_chunk` is a `filter` of `transcript_data`, i.e. the snippets
in *input* order.  The claim says the join is in *temporal* (`start_time`)
order; for unsorted input the two differ. -/

/-- Unsorted input refuting C4: one window `[0, 30)` contains both snippets;
the code joins them in input order. -/
def dataC4 : List Snippet := [⟨"b", 10, 1⟩, ⟨"a", 0, 1⟩]

/-! ## Message segmenter (src/generate_newsletter.py, `split_message_intelligently`)

Strings are modelled as `List Char`; Python `len` is `List.length` (both count
code points). -/

/-- Python `text.split(sep)` for a single-character separator. -/
def splitOnChar (sep : Char) : List Char → List (List Char)
  | [] => [[]]
  | x :: rest =>
    match splitOnChar sep rest with
    | [] => [[]]
    | cur :: rs => if x = sep then [] :: cur :: rs else (x :: cur) :: rs

/-- Python `sep.join(parts)`. -/
def joinWith (sep : List Char) : List (List Char) → List Char
  | [] => []
  | [x] => x
  | x :: rest => x ++ sep ++ joinWith sep rest

/-- Python's `str.strip()` whitespace set (space, tab, newline, carriage
return, vertical tab, form feed). -/
def isPyWs (c : Char) : Bool :=
  c = ' ' || c = '\t' || c = '\n' || c = '\r' || c = Char.ofNat 11 || c = Char.ofNat 12

/-- Python `s.strip()`. -/
def pyStrip (l : List Char) : List Char :=
  ((l.dropWhile isPyWs).reverse.dropWhile isPyWs).reverse

/-- Python `pat in line` (substring containment) for the fixed divider
patterns. -/
def containsSub (pat : List Char) (l : List Char) : Bool :=
  l.tails.any (pat.isPrefixOf ·)

/-- The section-divider test `'===' in line or '━━━' in line`. -/
def isDividerLine (line : List Char) : Bool :=
  containsSub ['=', '=', '='] line || containsSub ['━', '━', '━'] line

/-- Python `chunk.split('\n\n')` — split on a non-empty separator substring,
non-overlapping, scanning left to right.  `p0 :: ptail` is the separator. -/
def splitOnSeqAux (p0 : Char) (ptail : List Char) : List Char → List (List Char)
  | [] => [[]]
  | c :: rest =>
    if (p0 :: ptail).isPrefixOf (c :: rest) then
      match splitOnSeqAux p0 ptail (rest.drop ptail.length) with
      | [] => [[]]
      | r => [] :: r
    else
      match splitOnSeqAux p0 ptail rest with
      | [] => [[c]]
      | cur :: rs => (c :: cur) :: rs
termination_by l => l.length
decreasing_by
  · simp only [List.length_cons]
    have := List.length_drop ptail.length rest
    omega
  · simp

/-- Python `s.split(sep)` for a non-empty separator string. -/
def splitOnSeq (pat : List Char) (l : List Char) : List (List Char) :=
  match pat with
  | [] => [l]
  | p0 :: ptail => splitOnSeqAux p0 ptail l

/-- First pass of `split_message_intelligently`: cut the line list into
sections at divider lines, each divider line attached to the section it
starts; state is `(sections, current_section)`.  Python's truthiness test
`if current_section:` is the `isEmpty` check. -/
def sectionStep : List (List Char) × List (List Char) → List Char →
    List (List Char) × List (List Char)
  | (sections, current), line =>
    if isDividerLine line then
      if current.isEmpty then (sections, [line])
      else (sections ++ [joinWith ['\n'] current], [line])
    else (sections, current ++ [line])

/-- The trailing `if current_section: sections.append('\n'.join(current_section))`
flush of the first pass. -/
def flushSections : List (List Char) × List (List Char) → List (List Char)
  | (sections, current) =>
    if current.isEmpty then sections else sections ++ [joinWith ['\n'] current]

/-- The section list of a message (first pass, including the trailing flush). -/
def messageSections (message : List Char) : List (List Char) :=
  flushSections ((splitOnChar '\n' message).foldl sectionStep ([], []))

/-- Second pass: greedily pack whole sections;
`if current_chunk and len(current_chunk) + len(section) + 2 > max_length`. -/
def packStep (maxLength : ℕ) : List (List Char) × List Char → List Char →
    List (List Char) × List Char
  | (chunks, current), section_ =>
    if current ≠ [] ∧ current.length + section_.length + 2 > maxLength then
      (chunks ++ [pyStrip current], section_ ++ ['\n', '\n'])
    else (chunks, current ++ section_ ++ ['\n', '\n'])

/-- The trailing `if current_chunk.strip(): chunks.append(current_chunk.strip())`
flush of the second pass. -/
def flushPack : List (List Char) × List Char → List (List Char)
  | (chunks, current) =>
    if (pyStrip current) ≠ [] then chunks ++ [pyStrip current] else chunks

/-- Result of the second pass. -/
def packSections (maxLength : ℕ) (sections : List (List Char)) : List (List Char) :=
  flushPack (sections.foldl (packStep maxLength) ([], []))

/-- Third pass inner loop over paragraphs:
`if len(temp_chunk) + len(para) + 2 <= max_length`. -/
def paraStep (maxLength : ℕ) : List (List Char) × List Char → List Char →
    List (List Char) × List Char
  | (finalChunks, temp), para =>
    if temp.length + para.length + 2 ≤ maxLength then
      (finalChunks, temp ++ para ++ ['\n', '\n'])
    else if (pyStrip temp) ≠ [] then
      (finalChunks ++ [pyStrip temp], para ++ ['\n', '\n'])
    else (finalChunks, para ++ ['\n', '\n'])

/-- The trailing `if temp_chunk.strip():` flush of the paragraph re-split. -/
def flushPara : List (List Char) × List Char → List (List Char)
  | (finalChunks, temp) =>
    if (pyStrip temp) ≠ [] then finalChunks ++ [pyStrip temp] else finalChunks

/-- Third pass: any packed segment still over `max_length` is re-split by
paragraphs (`chunk.split('\n\n')`) with the same greedy rule. -/
def resplitStep (maxLength : ℕ) (finalChunks : List (List Char)) (chunk : List Char) :
    List (List Char) :=
  if chunk.length ≤ maxLength then finalChunks ++ [chunk]
  else flushPara ((splitOnSeq ['\n', '\n'] chunk).foldl (paraStep maxLength) (finalChunks, []))

/-- The segmenter `split_message_intelligently(message, max_length)` from
src/generate_newsletter.py. -/
def split_message_intelligently (message : List Char) (maxLength : ℕ) : List (List Char) :=
  (packSections maxLength (messageSections message)).foldl (resplitStep maxLength) []

/-! ### Claim C3 — three 800-character sections, `max_length = 1500`

Input: three sections of 800 characters each (the second and third start with
a 10-character `==========` divider line), joined by newlines.  The greedy
rule `len(current_chunk) + len(section) + 2 > max_length` breaks *before* the
second section (802 + 800 + 2 = 1604 > 1500) and again before the third, so
the code emits three segments of 800 characters each — not the two the claim
asserts. -/

/-- First section: 800 `a`s. -/
def secA : List Char := List.replicate 800 'a'

/-- The divider line opening the second and third sections. -/
def divLine : List Char := List.replicate 10 '='

/-- Second section: divider line, newline, 789 `b`s (800 characters). -/
def secB : List Char := divLine ++ '\n' :: List.replicate 789 'b'

/-- Third section: divider line, newline, 789 `c`s (800 characters). -/
def secC : List Char := divLine ++ '\n' :: List.replicate 789 'c'

/-- The C3 message: three sections of 800 characters each. -/
def msgC3 : List Char := secA ++ '\n' :: (secB ++ '\n' :: secC)

/-- Python `int(match.group(1))`: digits to a natural number. -/
def digitsToNat (ds : List Char) : ℕ :=
  ds.foldl (fun a c => 10 * a + (c.toNat - '0'.toNat)) 0

/-- The `re.sub` scan with the citation callback.  `seen` is the call-local
`embedded_citations` set (`ℕ` membership in a list), `chunks` the ordered
result list, `render n chunk` the first-occurrence rendering of `chunks[n-1]`,
`renderRepeat n` the repeat rendering. -/
def scanCitations {α : Type} [Inhabited α] (chunks : List α)
    (render : ℕ → α → List Char) (renderRepeat : ℕ → List Char) :
    List ℕ → List Char → List Char
  | _, [] => []
  | seen, c :: rest =>
    if c = '[' then
      if (rest.dropWhile Char.isDigit).head? = some ']' ∧ rest.takeWhile Char.isDigit ≠ [] then
        if digitsToNat (rest.takeWhile Char.isDigit) < 1 ∨
            digitsToNat (rest.takeWhile Char.isDigit) > chunks.length then
          '[' :: (rest.takeWhile Char.isDigit ++
            ']' :: scanCitations chunks render renderRepeat seen (rest.dropWhile Char.isDigit).tail)
        else if digitsToNat (rest.takeWhile Char.isDigit) ∈ seen then
          renderRepeat (digitsToNat (rest.takeWhile Char.isDigit)) ++
            scanCitations chunks render renderRepeat seen (rest.dropWhile Char.isDigit).tail
        else
          render (digitsToNat (rest.takeWhile Char.isDigit))
              (chunks.getD (digitsToNat (rest.takeWhile Char.isDigit) - 1) default) ++
            scanCitations chunks render renderRepeat
              (digitsToNat (rest.takeWhile Char.isDigit) :: seen)
              (rest.dropWhile Char.isDigit).tail
      else c :: scanCitations chunks render renderRepeat seen rest
    else c :: scanCitations chunks render renderRepeat seen rest
termination_by _ l => l.length
decreasing_by
  all_goals simp only [List.length_cons]
  all_goals
    first
      | omega
      | (have h1 : (rest.dropWhile Char.isDigit).length ≤ rest.length :=
           (List.dropWhile_sublist Char.isDigit).length_le
         have h2 : (rest.dropWhile Char.isDigit).tail.length ≤
             (rest.dropWhile Char.isDigit).length := by
           cases rest.dropWhile Char.isDigit <;> simp
         omega)

/-- The resolver `replace_citations_with_video_clips` / the citation pass of
`format_article_for_whatsapp`: the scan starts with an empty
`embedded_citations` set on every call. -/
def replace_citations {α : Type} [Inhabited α] (chunks : List α)
    (render : ℕ → α → List Char) (renderRepeat : ℕ → List Char)
    (article : List Char) : List Char :=
  scanCitations chunks render renderRepeat [] article

/-- A token of the article text: a plain character or a citation token
`[ds]` (the digit run `ds` is kept verbatim so that out-of-range tokens can be
reproduced unchanged). -/
inductive CitTok : Type
  | plain (c : Char)
  | cite (ds : List Char)
deriving DecidableEq, Repr

/-- Spec-side tokenisation: the left-to-right, non-overlapping occurrences of
`\[(\d+)\]`, independent of any validity judgement. -/
def tokenizeCitations : List Char → List CitTok
  | [] => []
  | c :: rest =>
    if c = '[' then
      if (rest.dropWhile Char.isDigit).head? = some ']' ∧ rest.takeWhile Char.isDigit ≠ [] then
        CitTok.cite (rest.takeWhile Char.isDigit) ::
          tokenizeCitations (rest.dropWhile Char.isDigit).tail
      else CitTok.plain c :: tokenizeCitations rest
    else CitTok.plain c :: tokenizeCitations rest
termination_by l => l.length
decreasing_by
  all_goals simp only [List.length_cons]
  all_goals
    first
      | omega
      | (have h1 : (rest.dropWhile Char.isDigit).length ≤ rest.length :=
           (List.dropWhile_sublist Char.isDigit).length_le
         have h2 : (rest.dropWhile Char.isDigit).tail.length ≤
             (rest.dropWhile Char.isDigit).length := by
           cases rest.dropWhile Char.isDigit <;> simp
         omega)

/-- Spec-side rendering of the token stream (§4.4 of the spec): an
out-of-range ordinal is reproduced verbatim, the first occurrence of a valid
ordinal is rendered richly, later occurrences lightly. -/
def renderTokens {α : Type} [Inhabited α] (chunks : List α)
    (render : ℕ → α → List Char) (renderRepeat : ℕ → List Char) :
    List ℕ → List CitTok → List Char
  | _, [] => []
  | seen, CitTok.plain c :: ts => c :: renderTokens chunks render renderRepeat seen ts
  | seen, CitTok.cite ds :: ts =>
    let n := digitsToNat ds
    if n < 1 ∨ n > chunks.length then
      '[' :: (ds ++ ']' :: renderTokens chunks render renderRepeat seen ts)
    else if n ∈ seen then
      renderRepeat n ++ renderTokens chunks render renderRepeat seen ts
    else
      render n (chunks.getD (n - 1) default) ++
        renderTokens chunks render renderRepeat (n :: seen) ts

/-! ## Retrieval aggregator (src/generate_newsletter.py, `aggregate_search_results`)

External collaborators are abstracted by their interfaces: the embedding model
plus ChromaDB query become one function `query : String → List Hit` yielding
the ranked hits for a keyword (the source zips `documents`, `metadatas` and
`distances`, which are index-aligned), and the presence of the
`youtube_transcripts` collection becomes the flag `collectionExists`
(`client.get_collection` raising is the only failure mode the source
handles).

The source keys its accumulating dict by the string
`f"{video_id}_{chunk_start_time}"`; since the rendering of the number
`chunk_start_time` contains no underscore, the last underscore of the key is
always the separator, so the key determines and is determined by the pair
`(video_id, chunk_start_time)`; the model uses the pair directly.  Python
dicts preserve the position of a key on value re-assignment, so the dict is an
association list updated in place.  `list.sort(key=..., reverse=True)` is a
stable descending sort, modelled as stable insertion sort
(`sortByRelevanceDesc`). -/

/-- The metadata fields of a hit that the aggregator reads. -/
structure Metadata where
  video_id : String
  chunk_start_time : ℚ
deriving DecidableEq, Repr

/-- One hit of a ChromaDB query: an aligned (document, metadata, distance)
triple. -/
structure Hit where
  doc : String
  metadata : Metadata
  distance : ℚ
deriving DecidableEq, Repr

/-- The identity `chunk_id = f"{metadata['video_id']}_{metadata['chunk_start_time']}"`,
modelled as the pair it encodes. -/
def chunkIdOf (m : Metadata) : String × ℚ := (m.video_id, m.chunk_start_time)

/-- One entry of the aggregator's result:
`{chunk_id, text, metadata, relevance_score, matching_keywords}`. -/
structure AggregatedResult where
  chunk_id : String × ℚ
  text : String
  metadata : Metadata
  relevance_score : ℚ
  matching_keywords : List String
deriving DecidableEq, Repr

/-- In-place update of the entry with key `cid` (Python dict assignment to an
existing key keeps its position). -/
def updateAssoc (cid : String × ℚ) (r : AggregatedResult) :
    List AggregatedResult → List AggregatedResult
  | [] => []
  | x :: rest => if x.chunk_id = cid then r :: rest else x :: updateAssoc cid r rest

/-- The per-hit merge of the source's inner loop:
if `chunk_id not in all_results or all_results[chunk_id]['relevance_score'] <
relevance_score`, replace the whole record (with `matching_keywords =
[keyword]`); otherwise append the keyword if it is not already present. -/
def processHit (keyword : String) (acc : List AggregatedResult) (h : Hit) :
    List AggregatedResult :=
  match acc.find? (fun r => decide (r.chunk_id = chunkIdOf h.metadata)) with
  | none =>
      acc ++ [⟨chunkIdOf h.metadata, h.doc, h.metadata, 1 - h.distance, [keyword]⟩]
  | some r =>
      if r.relevance_score < 1 - h.distance then
        updateAssoc (chunkIdOf h.metadata)
          ⟨chunkIdOf h.metadata, h.doc, h.metadata, 1 - h.distance, [keyword]⟩ acc
      else if keyword ∈ r.matching_keywords then acc
      else
        updateAssoc (chunkIdOf h.metadata)
          { r with matching_keywords := r.matching_keywords ++ [keyword] } acc

/-- The accumulating dict after the two nested `for` loops. -/
def aggAccum (query : String → List Hit) (keywords : List String) :
    List AggregatedResult :=
  keywords.foldl (fun acc kw => (query kw).foldl (processHit kw) acc) []

/-- Stable insertion (descending by `relevance_score`): an element is placed
after every earlier element with a score `≥` its own. -/
def sortInsert (r : AggregatedResult) : List AggregatedResult → List AggregatedResult
  | [] => [r]
  | b :: l =>
    if r.relevance_score < b.relevance_score then b :: sortInsert r l else r :: b :: l

/-- Stable descending sort by `relevance_score` — the model of
`unique_chunks.sort(key=lambda x: x['relevance_score'], reverse=True)`
(Python's sort is stable, also under `reverse=True`). -/
def sortByRelevanceDesc : List AggregatedResult → List AggregatedResult
  | [] => []
  | r :: rest => sortInsert r (sortByRelevanceDesc rest)

/-- The message of the `RuntimeError` raised when the collection is missing. -/
def collectionErrorMsg : String :=
  "Error: Collection 'youtube_transcripts' not found.\nPlease run 'python chromadb_setup.py' first to create the database."

/-- The aggregator `aggregate_search_results(keywords, ...)` from src/generate_newsletter.py:
fatal error when the collection is absent, otherwise merge all per-keyword
query results and return them sorted by descending relevance. -/
def aggregate_search_results (collectionExists : Bool) (query : String → List Hit)
    (keywords : List String) : Except String (List AggregatedResult) :=
  if collectionExists then
    Except.ok (sortByRelevanceDesc (aggAccum query keywords))
  else Except.error collectionErrorMsg

/-- The flattened hit stream: every `(keyword, hit)` pair in processing order.
`aggAccum` is the left fold of `processHit` over this stream. -/
def hitStream (query : String → List Hit) (keywords : List String) :
    List (String × Hit) :=
  keywords.flatMap (fun kw => (query kw).map (fun h => (kw, h)))

/-- One step of the stream fold. -/
def streamStep (acc : List AggregatedResult) (p : String × Hit) :
    List AggregatedResult :=
  processHit p.1 acc p.2

/-- The scores `1 - distance` of the hits of the stream whose identity is
`cid`, in stream order. -/
def scoresFor (cid : String × ℚ) (l : List (String × Hit)) : List ℚ :=
  (l.filter (fun p => decide (chunkIdOf p.2.metadata = cid))).map
    (fun p => 1 - p.2.distance)

/-- Keyword `kw` surfaced identity `cid` in the stream `l`. -/
def surfaced (kw : String) (cid : String × ℚ) (l : List (String × Hit)) : Prop :=
  ∃ p ∈ l, p.1 = kw ∧ chunkIdOf p.2.metadata = cid

/-- First-seen order of the identities of a stream. -/
def firstSeenKeys (l : List (String × Hit)) : List (String × ℚ) :=
  l.foldl
    (fun ks p => if chunkIdOf p.2.metadata ∈ ks then ks else ks ++ [chunkIdOf p.2.metadata]) []

/-- Invariant of the accumulating dict after processing the stream `l`:
the keys are the first-seen identities in stream order (in particular no
duplicates), and each entry's score is the maximum of `1 - distance` over the
hits with its identity, while each of its `matching_keywords` surfaced that
identity. -/
def AccInv (l : List (String × Hit)) (acc : List AggregatedResult) : Prop :=
  acc.map (·.chunk_id) = firstSeenKeys l ∧
  ∀ r ∈ acc,
    r.relevance_score ∈ scoresFor r.chunk_id l ∧
    (∀ s ∈ scoresFor r.chunk_id l, s ≤ r.relevance_score) ∧
    (∀ kw ∈ r.matching_keywords, surfaced kw r.chunk_id l) ∧
    r.matching_keywords ≠ []

/-! ### Concrete aggregator inputs for counterexamples and witnesses -/

/-- Query for the C1 counterexample: keyword "B" surfaces chunk `("v", 0)`
with distance 1 (score 0), keyword "A" surfaces the same chunk with distance 0
(score 1). -/
def qC1 : String → List Hit := fun kw =>
  if kw = "B" then [⟨"t", ⟨"v", 0⟩, 1⟩]
  else if kw = "A" then [⟨"t", ⟨"v", 0⟩, 0⟩]
  else []

/-- The single record the aggregator returns on `qC1` with keywords
`["B", "A"]`. -/
def recC1 : AggregatedResult := ⟨("v", 0), "t", ⟨"v", 0⟩, 1, ["A"]⟩

/-- Query for the C6 witness: one keyword surfacing two distinct chunks with
equal scores. -/
def qC6 : String → List Hit := fun _ =>
  [⟨"t1", ⟨"v1", 0⟩, 0⟩, ⟨"t2", ⟨"v2", 0⟩, 0⟩]

/-- Query for the C9 counterexample: a hit with distance 2, as a vector
store's distance metric may exceed 1. -/
def qC9 : String → List Hit := fun _ => [⟨"t", ⟨"v", 0⟩, 2⟩]

/-- The record the aggregator returns on `qC9`: relevance 1 - 2 = -1. -/
def recC9 : AggregatedResult := ⟨("v", 0), "t", ⟨"v", 0⟩, -1, ["k"]⟩

/-- Query for the C9 witness: a single hit with distance 0. -/
def qC9W : String → List Hit := fun _ => [⟨"t", ⟨"v", 0⟩, 0⟩]

/-- The record the aggregator returns on `qC9W`. -/
def recC9W : AggregatedResult := ⟨("v", 0), "t", ⟨"v", 0⟩, 1, ["k"]⟩

/-- The all-empty query for the C8 witness. -/
def qEmpty : String → List Hit := fun _ => []

/-! ## Theorems -/

theorem ratMax_eq (a b : ℚ) : ratMax a b = max a b := (max_def a b).symm

/-! ### Basic chunker lemmas -/

theorem mem_chunk_iff {data : List Snippet} {d : ℚ} {c : Chunk} :
    c ∈ chunk_transcript_by_time data d ↔
      ¬data.isEmpty ∧ ∃ i ∈ List.range (numWindows (maxEndTime data) d), mkChunk data d i = some c := by
  unfold chunk_transcript_by_time
  by_cases h : data.isEmpty <;> simp [h, List.mem_filterMap]

theorem mkChunk_some {data : List Snippet} {d : ℚ} {i : ℕ} {c : Chunk}
    (h : mkChunk data d i = some c) :
    c.snippets = snippetsInWindow data ((i : ℚ) * d) ((i : ℚ) * d + d) ∧
      c.snippets ≠ [] ∧
      c.start_time = (i : ℚ) * d ∧ c.end_time = (i : ℚ) * d + d ∧
      c.text = joinSpace (c.snippets.map (·.text)) := by
  unfold mkChunk at h
  by_cases he : (snippetsInWindow data ((i : ℚ) * d) ((i : ℚ) * d + d)).isEmpty
  · simp [he] at h
  · simp only [he, if_false] at h
    cases h
    simp_all [List.isEmpty_iff]

theorem mem_snippetsInWindow {data : List Snippet} {wstart wend : ℚ} {s : Snippet} :
    s ∈ snippetsInWindow data wstart wend ↔
      s ∈ data ∧ s.start_time < wend ∧ wstart < snippetEnd s := by
  simp [snippetsInWindow, List.mem_filter, and_assoc]

theorem snippetEnd_le_maxEndTime {data : List Snippet} {s : Snippet} (h : s ∈ data) :
    snippetEnd s ≤ maxEndTime data := by
  have hfold : ∀ (l : List Snippet) (init : ℚ),
      l.foldl (fun m t => ratMax m (snippetEnd t)) init =
        l.foldl (fun m t => max m (snippetEnd t)) init := by
    intro l
    induction l with
    | nil => simp
    | cons a l ih => intro init; simp [ratMax_eq, ih]
  have key : ∀ (l : List Snippet) (init : ℚ),
      init ≤ l.foldl (fun m t => max m (snippetEnd t)) init ∧
      ∀ t ∈ l, snippetEnd t ≤ l.foldl (fun m t => max m (snippetEnd t)) init := by
    intro l
    induction l with
    | nil => simp
    | cons a l ih =>
      intro init
      constructor
      · exact le_trans (le_max_left _ _) (ih (max init (snippetEnd a))).1
      · intro t ht
        rcases List.mem_cons.mp ht with rfl | ht
        · exact le_trans (le_max_right _ _) (ih (max init (snippetEnd t))).1
        · exact (ih (max init (snippetEnd a))).2 t ht
  cases data with
  | nil => cases h
  | cons a l =>
    rw [maxEndTime, hfold]
    rcases List.mem_cons.mp h with rfl | h
    · exact (key l (snippetEnd s)).1
    · exact (key l (snippetEnd a)).2 s h

theorem ratDiv_eq (a b : ℚ) (hb : b ≠ 0) : ratDiv a b = a / b := by
  have h1 : ((b.num : ℚ)) ≠ 0 := by
    simpa using Rat.num_ne_zero.mpr hb
  have h2 : ((a.den : ℚ)) ≠ 0 := by
    exact_mod_cast (Nat.cast_ne_zero (R := ℚ)).mpr a.den_nz
  have h3 : ((b.den : ℚ)) ≠ 0 := by
    exact_mod_cast (Nat.cast_ne_zero (R := ℚ)).mpr b.den_nz
  rw [ratDiv, Rat.divInt_eq_div]
  push_cast
  rw [div_eq_div_iff (mul_ne_zero h1 h2) hb]
  have ha : (a.num : ℚ) = a * a.den := (div_eq_iff h2).mp (Rat.num_div_den a)
  have hbn : (b.num : ℚ) = b * b.den := (div_eq_iff h3).mp (Rat.num_div_den b)
  rw [ha, hbn]
  ring

/-- Window index `i` is visited whenever `i*d ≤ maxEndTime data` (for `d > 0`
and a max end time reachable from a snippet, hence the `0 ≤ M` side condition). -/
theorem mem_range_numWindows {M d : ℚ} {i : ℕ} (hd : 0 < d) (hM : 0 ≤ M)
    (hi : (i : ℚ) * d ≤ M) : i ∈ List.range (numWindows M d) := by
  rw [List.mem_range, numWindows, if_neg (not_lt.mpr hM)]
  have hle : ((i : ℤ) : ℚ) ≤ M / d := by
    rw [le_div_iff₀ hd]
    simpa using hi
  have hfloor : (i : ℤ) ≤ Rat.floor (ratDiv M d) := by
    rw [ratDiv_eq M d (ne_of_gt hd)]
    exact Rat.le_floor.mpr hle
  omega

/-! ### Claim C5 — chunk shape and window disjointness -/

/-- C5: for every non-empty snippet sequence and `window_seconds > 0`, every
produced chunk has a non-empty `snippets` list and
`end_time = start_time + window_seconds`, and chunks at earlier positions end
no later than later chunks start (non-overlapping windows in emission order). -/
theorem chunker_shape_and_disjoint (data : List Snippet) (d : ℚ)
    (_hne : data ≠ []) (hd : 0 < d) :
    (∀ c ∈ chunk_transcript_by_time data d,
        c.snippets ≠ [] ∧ c.end_time = c.start_time + d) ∧
      (chunk_transcript_by_time data d).Pairwise (fun a b => a.end_time ≤ b.start_time) := by
  constructor
  · intro c hc
    rcases mem_chunk_iff.mp hc with ⟨-, i, -, hi⟩
    obtain ⟨-, hsne, hst, hen, -⟩ := mkChunk_some hi
    exact ⟨hsne, by rw [hst, hen]⟩
  · unfold chunk_transcript_by_time
    by_cases h : data.isEmpty
    · simp [h]
    · rw [if_neg h]
      rw [List.pairwise_filterMap]
      have : (List.range (numWindows (maxEndTime data) d)).Pairwise (· < ·) :=
        List.pairwise_lt_range _
      refine this.imp_of_mem ?_
      intro i j _ _ hij
      intro a ha b hb
      obtain ⟨-, -, -, hena, -⟩ := mkChunk_some ha
      obtain ⟨-, -, hstb, -, -⟩ := mkChunk_some hb
      rw [hena, hstb]
      have : ((i : ℚ) + 1) * d ≤ (j : ℚ) * d := by
        apply mul_le_mul_of_nonneg_right _ (le_of_lt hd)
        have : (i : ℚ) + 1 ≤ (j : ℚ) := by exact_mod_cast hij
        exact this
      linarith [this]

/-- Witness for C5 at a concrete input. -/
theorem chunker_shape_and_disjoint_witness :
    (∀ c ∈ chunk_transcript_by_time dataW 30,
        c.snippets ≠ [] ∧ c.end_time = c.start_time + 30) ∧
      (chunk_transcript_by_time dataW 30).Pairwise (fun a b => a.end_time ≤ b.start_time) :=
  chunker_shape_and_disjoint dataW 30 (by decide) (by norm_num)

/-! ### Claim C2 — zero-duration snippets at a window boundary

The source keeps a snippet for window `[w, w+d)` iff
`snippet_start < chunk_end and snippet_end > current_chunk_start`; with
`duration = 0` this reads `w < start_time < w + d` — *strict* at the window
start.  The claim asserts inclusion already at `start_time = window.start`
(`window.start <= start_time`), which the code refutes: a zero-duration
snippet whose `start_time` is exactly a window boundary is dropped from every
window. -/

/-- Counterexample to C2 as stated: the zero-duration snippet with
`start_time = 30` and `window_seconds = 30` should, per the claim, be a member
of the `[30, 60)` window's chunk; the code produces no chunk at all. -/
theorem zero_duration_boundary_counterexample :
    chunk_transcript_by_time [⟨"a", 30, 0⟩] 30 = [] := by decide

/-- C2 amended: for `window_seconds > 0`, a zero-duration snippet is a member
of the chunk for window `i` exactly when `window.start < start_time <
window.end` — strict at *both* ends; in particular a zero-duration snippet
whose `start_time` lies on a window boundary (including `start_time = 0`)
belongs to no window. -/
theorem zero_duration_window_membership (data : List Snippet) (d : ℚ) (s : Snippet) (i : ℕ)
    (hd : 0 < d) (hs : s ∈ data) (hdur : s.duration = 0) :
    (∃ c ∈ chunk_transcript_by_time data d,
        c.start_time = (i : ℚ) * d ∧ s ∈ c.snippets) ↔
      ((i : ℚ) * d < s.start_time ∧ s.start_time < (i : ℚ) * d + d) := by
  constructor
  · rintro ⟨c, hc, hst, hmem⟩
    rcases mem_chunk_iff.mp hc with ⟨-, j, -, hj⟩
    obtain ⟨hsnips, -, hstj, -, -⟩ := mkChunk_some hj
    have hji : (j : ℚ) * d = (i : ℚ) * d := by rw [← hstj, hst]
    rw [hsnips] at hmem
    rcases mem_snippetsInWindow.mp hmem with ⟨-, h1, h2⟩
    rw [hji] at h1 h2
    unfold snippetEnd at h2
    constructor
    · linarith
    · exact h1
  · rintro ⟨h1, h2⟩
    have hne : ¬data.isEmpty := by
      cases data with
      | nil => cases hs
      | cons a l => simp
    have hover : s ∈ snippetsInWindow data ((i : ℚ) * d) ((i : ℚ) * d + d) := by
      rw [mem_snippetsInWindow]
      refine ⟨hs, h2, ?_⟩
      unfold snippetEnd
      rw [hdur]
      linarith
    have hnonempty : ¬(snippetsInWindow data ((i : ℚ) * d) ((i : ℚ) * d + d)).isEmpty := by
      rw [List.isEmpty_iff]
      intro hcon
      rw [hcon] at hover
      cases hover
    have hchunk : mkChunk data d i =
        some ⟨joinSpace ((snippetsInWindow data ((i : ℚ) * d) ((i : ℚ) * d + d)).map (·.text)),
          (i : ℚ) * d, (i : ℚ) * d + d, snippetsInWindow data ((i : ℚ) * d) ((i : ℚ) * d + d)⟩ := by
      unfold mkChunk
      simp [hnonempty]
    have hM : snippetEnd s ≤ maxEndTime data := snippetEnd_le_maxEndTime hs
    have hsE : snippetEnd s = s.start_time := by unfold snippetEnd; rw [hdur]; ring
    have hMpos : (0 : ℚ) ≤ maxEndTime data := by
      have : (0 : ℚ) ≤ (i : ℚ) * d := by positivity
      linarith [hM, hsE ▸ hM]
    have hrange : i ∈ List.range (numWindows (maxEndTime data) d) := by
      apply mem_range_numWindows hd hMpos
      rw [hsE] at hM
      linarith
    refine ⟨_, mem_chunk_iff.mpr ⟨hne, i, hrange, hchunk⟩, rfl, hover⟩

/-- Witness for the amended C2 at a concrete input: the snippet
`{start_time = 5, duration = 0}` with `window_seconds = 30` lies strictly
inside window 0's interval `(0, 30)` and is indeed a member of that chunk. -/
theorem zero_duration_window_membership_witness :
    ∃ c ∈ chunk_transcript_by_time [⟨"a", 5, 0⟩] 30,
        c.start_time = ((0 : ℕ) : ℚ) * 30 ∧ (⟨"a", 5, 0⟩ : Snippet) ∈ c.snippets :=
  (zero_duration_window_membership [⟨"a", 5, 0⟩] 30 ⟨"a", 5, 0⟩ 0
    (by norm_num) (by decide) rfl).mpr (by norm_num)

/-- Counterexample to C4 as stated: on unsorted input the produced chunk's
`text` is `"b a"` (input order), while the space-join of its snippets in
temporal (`start_time`) order is `"a b"`. -/
theorem chunk_text_order_counterexample :
    (chunk_transcript_by_time dataC4 30).map (·.text) = ["b a"] ∧
      (chunk_transcript_by_time dataC4 30).map
        (fun c => joinSpace ((sortByStart c.snippets).map (·.text))) = ["a b"] := by
  constructor <;> decide

/-- C4 amended: each produced chunk's `text` is the space-joined concatenation
of its member snippets' texts in *input* order (the snippets list is a
subsequence of the input sequence), not in temporal order. -/
theorem chunk_text_input_order (data : List Snippet) (d : ℚ) (c : Chunk)
    (hc : c ∈ chunk_transcript_by_time data d) :
    c.text = joinSpace (c.snippets.map (·.text)) ∧ c.snippets.Sublist data := by
  rcases mem_chunk_iff.mp hc with ⟨-, i, -, hi⟩
  obtain ⟨hsnips, -, -, -, htext⟩ := mkChunk_some hi
  refine ⟨htext, ?_⟩
  rw [hsnips]
  exact List.filter_sublist data

/-- Witness for the amended C4 at a concrete input. -/
theorem chunk_text_input_order_witness :
    ∃ c ∈ chunk_transcript_by_time dataC4 30,
      c.text = joinSpace (c.snippets.map (·.text)) ∧ c.snippets.Sublist dataC4 := by
  have hmem : (⟨"b a", 0 * 30, 0 * 30 + 30, dataC4⟩ : Chunk) ∈ chunk_transcript_by_time dataC4 30 := by
    decide
  exact ⟨_, hmem, chunk_text_input_order dataC4 30 _ hmem⟩

/-! ### Claim C10 — no positive-duration snippet is dropped -/

/-- C10: for non-negative start times and `window_seconds > 0`, every snippet
with strictly positive duration is a member of the chunk for the window
containing its `start_time`. -/
theorem positive_duration_snippet_not_dropped (data : List Snippet) (d : ℚ) (s : Snippet)
    (hd : 0 < d) (hpos : ∀ t ∈ data, 0 ≤ t.start_time) (hs : s ∈ data)
    (hdur : 0 < s.duration) :
    ∃ c ∈ chunk_transcript_by_time data d,
      s ∈ c.snippets ∧ c.start_time ≤ s.start_time ∧ s.start_time < c.end_time := by
  have hs0 : 0 ≤ s.start_time := hpos s hs
  have hx0 : (0 : ℚ) ≤ s.start_time / d := div_nonneg hs0 (le_of_lt hd)
  set i : ℕ := (Rat.floor (s.start_time / d)).toNat with hi
  have hfl0 : 0 ≤ Rat.floor (s.start_time / d) := Rat.le_floor.mpr (by exact_mod_cast hx0)
  have hiZ : ((i : ℤ)) = Rat.floor (s.start_time / d) := by
    rw [hi]
    exact Int.toNat_of_nonneg hfl0
  have hicast : ((i : ℤ) : ℚ) = (Rat.floor (s.start_time / d) : ℚ) := by
    exact_mod_cast congrArg (fun z : ℤ => (z : ℚ)) hiZ
  have hfloor_le : ((i : ℚ)) ≤ s.start_time / d := by
    have h := Rat.le_floor.mp (le_refl (Rat.floor (s.start_time / d)))
    calc ((i : ℚ)) = ((i : ℤ) : ℚ) := by push_cast; ring
    _ = (Rat.floor (s.start_time / d) : ℚ) := hicast
    _ ≤ s.start_time / d := h
  have hlt_floor : s.start_time / d < (i : ℚ) + 1 := by
    by_contra hcon
    push_neg at hcon
    have : (i : ℤ) + 1 ≤ Rat.floor (s.start_time / d) := by
      apply Rat.le_floor.mpr
      calc (((i : ℤ) + 1 : ℤ) : ℚ) = (i : ℚ) + 1 := by push_cast; ring
      _ ≤ s.start_time / d := hcon
    omega
  have hwl : (i : ℚ) * d ≤ s.start_time := by
    rw [← le_div_iff₀ hd]
    exact hfloor_le
  have hwr : s.start_time < (i : ℚ) * d + d := by
    have : s.start_time / d < (i : ℚ) + 1 := hlt_floor
    calc s.start_time = s.start_time / d * d := by field_simp
    _ < ((i : ℚ) + 1) * d := by
        exact mul_lt_mul_of_pos_right this hd
    _ = (i : ℚ) * d + d := by ring
  have hover : s ∈ snippetsInWindow data ((i : ℚ) * d) ((i : ℚ) * d + d) := by
    rw [mem_snippetsInWindow]
    refine ⟨hs, hwr, ?_⟩
    unfold snippetEnd
    linarith
  have hnonempty : ¬(snippetsInWindow data ((i : ℚ) * d) ((i : ℚ) * d + d)).isEmpty := by
    rw [List.isEmpty_iff]
    intro hcon
    rw [hcon] at hover
    cases hover
  have hchunk : mkChunk data d i =
      some ⟨joinSpace ((snippetsInWindow data ((i : ℚ) * d) ((i : ℚ) * d + d)).map (·.text)),
        (i : ℚ) * d, (i : ℚ) * d + d, snippetsInWindow data ((i : ℚ) * d) ((i : ℚ) * d + d)⟩ := by
    unfold mkChunk
    simp [hnonempty]
  have hne : ¬data.isEmpty := by
    cases data with
    | nil => cases hs
    | cons a l => simp
  have hM0 : 0 ≤ maxEndTime data := by
    have := snippetEnd_le_maxEndTime hs
    unfold snippetEnd at this
    linarith
  have hrange : i ∈ List.range (numWindows (maxEndTime data) d) := by
    apply mem_range_numWindows hd hM0
    have := snippetEnd_le_maxEndTime hs
    unfold snippetEnd at this
    linarith
  exact ⟨_, mem_chunk_iff.mpr ⟨hne, i, hrange, hchunk⟩, hover, hwl, hwr⟩

/-- Witness for C10 at a concrete input: the straddling snippet
`{start_time = 45, duration = 20}` from the spec's example is a member of the
`[30, 60)` chunk. -/
theorem positive_duration_snippet_not_dropped_witness :
    ∃ c ∈ chunk_transcript_by_time [⟨"x", 45, 20⟩] 30,
      (⟨"x", 45, 20⟩ : Snippet) ∈ c.snippets ∧
        c.start_time ≤ (45 : ℚ) ∧ (45 : ℚ) < c.end_time :=
  positive_duration_snippet_not_dropped [⟨"x", 45, 20⟩] 30 ⟨"x", 45, 20⟩
    (by norm_num) (by intro t ht; simp at ht; rw [ht]; norm_num) (by decide) (by norm_num)

theorem splitOnChar_ne_nil (sep : Char) (l : List Char) : splitOnChar sep l ≠ [] := by
  induction l with
  | nil => simp [splitOnChar]
  | cons x rest ih =>
    rw [splitOnChar]
    rcases h : splitOnChar sep rest with - | ⟨cur, rs⟩
    · exact absurd h ih
    · by_cases hx : x = sep <;> simp [hx]

theorem splitOnChar_of_not_mem {sep : Char} {xs : List Char} (h : sep ∉ xs) :
    splitOnChar sep xs = [xs] := by
  induction xs with
  | nil => rfl
  | cons x rest ih =>
    have hx : x ≠ sep := fun hc => h (hc ▸ List.mem_cons_self x rest)
    have hrest : sep ∉ rest := fun hc => h (List.mem_cons_of_mem x hc)
    rw [splitOnChar, ih hrest]
    simp [hx]

theorem splitOnChar_append_cons {sep : Char} {xs : List Char} (ys : List Char)
    (h : sep ∉ xs) :
    splitOnChar sep (xs ++ sep :: ys) = xs :: splitOnChar sep ys := by
  induction xs with
  | nil =>
    rw [List.nil_append, splitOnChar]
    rcases hys : splitOnChar sep ys with - | ⟨cur, rs⟩
    · exact absurd hys (splitOnChar_ne_nil sep ys)
    · simp
  | cons x rest ih =>
    have hx : x ≠ sep := fun hc => h (hc ▸ List.mem_cons_self x rest)
    have hrest : sep ∉ rest := fun hc => h (List.mem_cons_of_mem x hc)
    rw [List.cons_append, splitOnChar, ih hrest]
    simp [hx]

theorem containsSub_cons (pat : List Char) (c : Char) (l : List Char) :
    containsSub pat (c :: l) = (pat.isPrefixOf (c :: l) || containsSub pat l) := by
  simp [containsSub]

theorem containsSub_replicate {p c : Char} (ps : List Char) (n : ℕ) (h : p ≠ c) :
    containsSub (p :: ps) (List.replicate n c) = false := by
  induction n with
  | zero => simp [containsSub, List.isPrefixOf]
  | succ n ih =>
    rw [List.replicate_succ, containsSub_cons, ih]
    simp [List.isPrefixOf, h]

theorem isDividerLine_replicate {c : Char} (n : ℕ) (h1 : '=' ≠ c) (h2 : '━' ≠ c) :
    isDividerLine (List.replicate n c) = false := by
  simp [isDividerLine, containsSub_replicate _ _ h1, containsSub_replicate _ _ h2]

/-- Stripping a body with non-whitespace first/last characters and a trailing
`"\n\n"` recovers the body. -/
theorem pyStrip_wrap {c e : Char} (m : List Char)
    (hc : isPyWs c = false) (he : isPyWs e = false) :
    pyStrip (c :: (m ++ ([e] ++ ['\n', '\n']))) = c :: (m ++ [e]) := by
  have hws : isPyWs '\n' = true := by decide
  rw [pyStrip, List.dropWhile_cons]
  simp only [hc, Bool.false_eq_true, if_false]
  rw [show (c :: (m ++ ([e] ++ ['\n', '\n']))).reverse
        = '\n' :: ('\n' :: (e :: (m.reverse ++ [c]))) by simp]
  rw [List.dropWhile_cons, List.dropWhile_cons, List.dropWhile_cons]
  simp only [hws, if_true, he, Bool.false_eq_true, if_false]
  simp

/-- The five lines of `msgC3`. -/
theorem msgC3_lines :
    splitOnChar '\n' msgC3 =
      [secA, divLine, List.replicate 789 'b', divLine, List.replicate 789 'c'] := by
  have ha : '\n' ∉ secA := by
    rw [secA, List.mem_replicate]; simp
  have hd : '\n' ∉ divLine := by
    rw [divLine, List.mem_replicate]; simp
  have hb : '\n' ∉ List.replicate 789 'b' := by
    rw [List.mem_replicate]; simp
  have hc : '\n' ∉ List.replicate 789 'c' := by
    rw [List.mem_replicate]; simp
  rw [msgC3, splitOnChar_append_cons _ ha]
  rw [show secB ++ '\n' :: secC = divLine ++ '\n' :: (List.replicate 789 'b' ++ '\n' :: secC) by
    rw [secB, List.append_assoc, List.cons_append]]
  rw [splitOnChar_append_cons _ hd, splitOnChar_append_cons _ hb]
  rw [secC, splitOnChar_append_cons _ hd, splitOnChar_of_not_mem hc]

theorem sectionStep_plain {line : List Char} (h : isDividerLine line = false)
    (sections current : List (List Char)) :
    sectionStep (sections, current) line = (sections, current ++ [line]) := by
  rw [sectionStep]
  simp [h]

theorem sectionStep_div {line : List Char} (h : isDividerLine line = true)
    {current : List (List Char)} (hc : current.isEmpty = false)
    (sections : List (List Char)) :
    sectionStep (sections, current) line =
      (sections ++ [joinWith ['\n'] current], [line]) := by
  rw [sectionStep]
  simp [h, hc]

/-- The first pass cuts `msgC3` into its three sections. -/
theorem msgC3_sections : messageSections msgC3 = [secA, secB, secC] := by
  have hdiv : isDividerLine divLine = true := by decide
  have hA : isDividerLine secA = false := by
    rw [secA]; exact isDividerLine_replicate 800 (by decide) (by decide)
  have hB : isDividerLine (List.replicate 789 'b') = false :=
    isDividerLine_replicate 789 (by decide) (by decide)
  have hC : isDividerLine (List.replicate 789 'c') = false :=
    isDividerLine_replicate 789 (by decide) (by decide)
  have hjA : joinWith ['\n'] [secA] = secA := rfl
  have hjB : joinWith ['\n'] [divLine, List.replicate 789 'b'] = secB := rfl
  have hjC : joinWith ['\n'] [divLine, List.replicate 789 'c'] = secC := rfl
  rw [messageSections, msgC3_lines]
  rw [List.foldl_cons, sectionStep_plain hA, List.nil_append]
  rw [List.foldl_cons, sectionStep_div hdiv (by rfl), List.nil_append, hjA]
  rw [List.foldl_cons, sectionStep_plain hB]
  simp only [List.singleton_append]
  rw [List.foldl_cons, sectionStep_div hdiv (by rfl), hjB]
  rw [List.foldl_cons, sectionStep_plain hC]
  simp only [List.singleton_append]
  rw [List.foldl_nil, flushSections]
  rw [if_neg (by decide), hjC]
  simp only [List.cons_append, List.nil_append]

theorem secA_length : secA.length = 800 := by
  rw [secA, List.length_replicate]

theorem secB_length : secB.length = 800 := by
  rw [secB, List.length_append, List.length_cons, List.length_replicate,
    divLine, List.length_replicate]

theorem secC_length : secC.length = 800 := by
  rw [secC, List.length_append, List.length_cons, List.length_replicate,
    divLine, List.length_replicate]

theorem secA_ne_nil : secA ≠ [] := by
  intro h
  have := congrArg List.length h
  rw [secA_length] at this
  simp at this

theorem secB_ne_nil : secB ≠ [] := by
  intro h
  have := congrArg List.length h
  rw [secB_length] at this
  simp at this

theorem secC_ne_nil : secC ≠ [] := by
  intro h
  have := congrArg List.length h
  rw [secC_length] at this
  simp at this

theorem replicate_decomp_a :
    List.replicate 800 'a' = 'a' :: (List.replicate 798 'a' ++ ['a']) := by
  rw [show (800 : ℕ) = 798 + 1 + 1 by norm_num]
  rw [List.replicate_succ]
  rw [List.replicate_succ']

theorem replicate_decomp_eq : List.replicate 10 '=' = '=' :: List.replicate 9 '=' := by
  rw [show (10 : ℕ) = 9 + 1 by norm_num]
  rw [List.replicate_succ]

theorem replicate_decomp_b :
    List.replicate 789 'b' = List.replicate 788 'b' ++ ['b'] := by
  rw [show (789 : ℕ) = 788 + 1 by norm_num]
  rw [List.replicate_succ']

theorem replicate_decomp_c :
    List.replicate 789 'c' = List.replicate 788 'c' ++ ['c'] := by
  rw [show (789 : ℕ) = 788 + 1 by norm_num]
  rw [List.replicate_succ']

theorem pyStrip_secA : pyStrip (secA ++ ['\n', '\n']) = secA := by
  have harg : secA ++ ['\n', '\n'] =
      'a' :: (List.replicate 798 'a' ++ (['a'] ++ ['\n', '\n'])) := by
    rw [secA, replicate_decomp_a]
    simp only [List.cons_append, List.append_assoc]
  have hconc : 'a' :: (List.replicate 798 'a' ++ ['a']) = secA := by
    rw [secA, replicate_decomp_a]
  rw [harg, pyStrip_wrap _ (by decide) (by decide), hconc]

theorem pyStrip_secB : pyStrip (secB ++ ['\n', '\n']) = secB := by
  have harg : secB ++ ['\n', '\n'] =
      '=' :: ((List.replicate 9 '=' ++ '\n' :: List.replicate 788 'b') ++
        (['b'] ++ ['\n', '\n'])) := by
    rw [secB, divLine, replicate_decomp_eq, replicate_decomp_b]
    simp only [List.cons_append, List.append_assoc, List.singleton_append]
  have hconc : '=' :: ((List.replicate 9 '=' ++ '\n' :: List.replicate 788 'b') ++ ['b']) =
      secB := by
    rw [secB, divLine, replicate_decomp_eq, replicate_decomp_b]
    simp only [List.cons_append, List.append_assoc, List.singleton_append]
  rw [harg, pyStrip_wrap _ (by decide) (by decide), hconc]

theorem pyStrip_secC : pyStrip (secC ++ ['\n', '\n']) = secC := by
  have harg : secC ++ ['\n', '\n'] =
      '=' :: ((List.replicate 9 '=' ++ '\n' :: List.replicate 788 'c') ++
        (['c'] ++ ['\n', '\n'])) := by
    rw [secC, divLine, replicate_decomp_eq, replicate_decomp_c]
    simp only [List.cons_append, List.append_assoc, List.singleton_append]
  have hconc : '=' :: ((List.replicate 9 '=' ++ '\n' :: List.replicate 788 'c') ++ ['c']) =
      secC := by
    rw [secC, divLine, replicate_decomp_eq, replicate_decomp_c]
    simp only [List.cons_append, List.append_assoc, List.singleton_append]
  rw [harg, pyStrip_wrap _ (by decide) (by decide), hconc]

theorem secA_pad_length : (secA ++ ['\n', '\n']).length = 802 := by
  rw [List.length_append, secA_length]
  rfl

theorem secB_pad_length : (secB ++ ['\n', '\n']).length = 802 := by
  rw [List.length_append, secB_length]
  rfl

/-- Shared evaluation of the segmenter on the C3 input. -/
theorem segmenter_msgC3_eval :
    split_message_intelligently msgC3 1500 = [secA, secB, secC] := by
  have hpadA : secA ++ ['\n', '\n'] ≠ [] := by
    intro h
    have := congrArg List.length h
    rw [secA_pad_length] at this
    simp at this
  have hpadB : secB ++ ['\n', '\n'] ≠ [] := by
    intro h
    have := congrArg List.length h
    rw [secB_pad_length] at this
    simp at this
  rw [split_message_intelligently, msgC3_sections, packSections]
  rw [List.foldl_cons, packStep, if_neg (by simp), List.nil_append]
  rw [List.foldl_cons, packStep,
    if_pos ⟨hpadA, by rw [secA_pad_length, secB_length]; norm_num⟩,
    List.nil_append, pyStrip_secA]
  rw [List.foldl_cons, packStep,
    if_pos ⟨hpadB, by rw [secB_pad_length, secC_length]; norm_num⟩,
    pyStrip_secB]
  rw [List.foldl_nil, flushPack, pyStrip_secC, if_pos secC_ne_nil]
  simp only [List.singleton_append, List.cons_append, List.nil_append]
  rw [List.foldl_cons, resplitStep, if_pos (by rw [secA_length]; norm_num),
    List.nil_append]
  rw [List.foldl_cons, resplitStep, if_pos (by rw [secB_length]; norm_num)]
  rw [List.foldl_cons, resplitStep, if_pos (by rw [secC_length]; norm_num)]
  rw [List.foldl_nil]
  simp

/-- Counterexample to C3 as stated: the segmenter returns three segments on
the 800/800/800-section message with `max_length = 1500`, not exactly two
(800 + 800 + 2 > 1500 forces a break before the second section, and again
before the third). -/
theorem segmenter_three_sections_counterexample :
    (split_message_intelligently msgC3 1500).length = 3 := by
  rw [segmenter_msgC3_eval]
  rfl

/-- C3 amended: for the 800/800/800-section message with `max_length = 1500`
the segmenter returns exactly three segments — the three sections themselves —
no segment is empty, and joining the segments with a newline reconstructs the
original message in order. -/
theorem segmenter_three_sections :
    split_message_intelligently msgC3 1500 = [secA, secB, secC] ∧
      secA ≠ [] ∧ secB ≠ [] ∧ secC ≠ [] ∧
      joinWith ['\n'] [secA, secB, secC] = msgC3 := by
  refine ⟨segmenter_msgC3_eval, secA_ne_nil, secB_ne_nil, secC_ne_nil, ?_⟩
  rw [msgC3]
  simp only [joinWith, List.append_assoc, List.singleton_append]

/-! ## Citation resolver (src/generate_newsletter.py)

`replace_citations_with_video_clips(article, chunks)` and the citation pass of
`format_article_for_whatsapp(article, chunks, keywords)` share one algorithm:
`re.sub(r'\[(\d+)\]', replace_citation, article)` with a callback that keeps a
call-local `set` of already-embedded citation numbers, returns the match
unchanged for `n < 1 or n > len(chunks)`, renders `chunks[n-1]` richly on the
first occurrence of a valid `n` and a lightweight repeat marker afterwards.
The two renderers (HTML embed / WhatsApp link and `<sup>` / ` [n]`) are the
only difference and are abstracted as the `render` / `renderRepeat`
parameters.

For this regex, `re.sub` scans left to right; a match starts at `[` iff the
maximal digit run after it is non-empty and followed by `]`; on a match the
scan resumes after `]`, otherwise at the next character. -/

theorem length_dropWhile_le (p : Char → Bool) :
    ∀ l : List Char, (l.dropWhile p).length ≤ l.length := by
  intro l
  induction l with
  | nil => simp
  | cons c rest ih =>
    rw [List.dropWhile_cons]
    by_cases h : p c <;> simp [h]
    omega

/-- The scan agrees with tokenise-then-render from any starting `seen` set. -/
theorem scanCitations_eq_renderTokens {α : Type} [Inhabited α] (chunks : List α)
    (render : ℕ → α → List Char) (renderRepeat : ℕ → List Char) :
    ∀ (N : ℕ) (article : List Char), article.length ≤ N → ∀ seen : List ℕ,
      scanCitations chunks render renderRepeat seen article =
        renderTokens chunks render renderRepeat seen (tokenizeCitations article) := by
  intro N
  induction N with
  | zero =>
    intro article hlen seen
    have h : article = [] := List.eq_nil_of_length_eq_zero (Nat.le_zero.mp hlen)
    subst h
    simp [scanCitations, tokenizeCitations, renderTokens]
  | succ N ih =>
    intro article hlen seen
    match article with
    | [] => simp [scanCitations, tokenizeCitations, renderTokens]
    | c :: rest =>
      rw [scanCitations, tokenizeCitations]
      by_cases hc : c = '['
      · rw [if_pos hc, if_pos hc]
        by_cases htok : (rest.dropWhile Char.isDigit).head? = some ']' ∧
            rest.takeWhile Char.isDigit ≠ []
        · rw [if_pos htok, if_pos htok]
          have hlen2 : (rest.dropWhile Char.isDigit).tail.length ≤ N := by
            have h1 := length_dropWhile_le Char.isDigit rest
            have h2 : (rest.dropWhile Char.isDigit).tail.length ≤
                (rest.dropWhile Char.isDigit).length := by
              cases rest.dropWhile Char.isDigit <;> simp
            simp only [List.length_cons] at hlen
            omega
          rw [renderTokens]
          by_cases hrange : digitsToNat (rest.takeWhile Char.isDigit) < 1 ∨
              digitsToNat (rest.takeWhile Char.isDigit) > chunks.length
          · rw [if_pos hrange, if_pos hrange, ih _ hlen2]
          · rw [if_neg hrange, if_neg hrange]
            by_cases hseen : digitsToNat (rest.takeWhile Char.isDigit) ∈ seen
            · rw [if_pos hseen, if_pos hseen, ih _ hlen2]
            · rw [if_neg hseen, if_neg hseen, ih _ hlen2]
        · rw [if_neg htok, if_neg htok, renderTokens]
          have hlen1 : rest.length ≤ N := by
            simp only [List.length_cons] at hlen
            omega
          rw [ih _ hlen1]
      · rw [if_neg hc, if_neg hc, renderTokens]
        have hlen1 : rest.length ≤ N := by
          simp only [List.length_cons] at hlen
          omega
        rw [ih _ hlen1]

/-! ### Claim C7 — citation replacement -/

/-- C7: for every article text and result list, the citation replacement
performed by the code equals the spec-side procedure: split the text into
plain characters and bracketed digit tokens `[n]` left to right; a token with
`n < 1` or `n > length(results)` is reproduced completely unmodified; the
first occurrence of a valid `n` is replaced by the rich rendering of result
`n`; every later occurrence of the same `n` by the lightweight repeat
rendering; and the set of already-rendered ordinals starts empty on each call. -/
theorem citation_replacement_correct {α : Type} [Inhabited α] (chunks : List α)
    (render : ℕ → α → List Char) (renderRepeat : ℕ → List Char)
    (article : List Char) :
    replace_citations chunks render renderRepeat article =
      renderTokens chunks render renderRepeat [] (tokenizeCitations article) :=
  scanCitations_eq_renderTokens chunks render renderRepeat article.length article
    (le_refl _) []

/-! ### Aggregator lemmas -/

theorem aggAccum_eq_streamFold (query : String → List Hit) (keywords : List String) :
    aggAccum query keywords = (hitStream query keywords).foldl streamStep [] := by
  have inner : ∀ (hits : List Hit) (kw : String) (acc : List AggregatedResult),
      hits.foldl (processHit kw) acc =
        (hits.map (fun h => (kw, h))).foldl streamStep acc := by
    intro hits kw
    induction hits with
    | nil => intro acc; rfl
    | cons h t ih => intro acc; simp [List.foldl_cons, streamStep, ih]
  have main : ∀ (kws : List String) (acc : List AggregatedResult),
      kws.foldl (fun acc kw => (query kw).foldl (processHit kw) acc) acc =
        (hitStream query kws).foldl streamStep acc := by
    intro kws
    induction kws with
    | nil => intro acc; rfl
    | cons kw t ih =>
      intro acc
      rw [hitStream, List.flatMap_cons, List.foldl_append, List.foldl_cons]
      rw [← hitStream, ← ih, inner]
  exact main keywords []

theorem mem_firstSeenKeys {cid : String × ℚ} {l : List (String × Hit)} :
    cid ∈ firstSeenKeys l ↔ ∃ p ∈ l, chunkIdOf p.2.metadata = cid := by
  have key : ∀ (l : List (String × Hit)) (ks : List (String × ℚ)),
      cid ∈ l.foldl
          (fun ks p => if chunkIdOf p.2.metadata ∈ ks then ks
            else ks ++ [chunkIdOf p.2.metadata]) ks ↔
        cid ∈ ks ∨ ∃ p ∈ l, chunkIdOf p.2.metadata = cid := by
    intro l
    induction l with
    | nil => simp
    | cons p t ih =>
      intro ks
      rw [List.foldl_cons]
      by_cases hp : chunkIdOf p.2.metadata ∈ ks
      · rw [if_pos hp, ih]
        constructor
        · rintro (h | h)
          · exact Or.inl h
          · exact Or.inr (by simpa using Or.inr h)
        · rintro (h | h)
          · exact Or.inl h
          · rcases List.mem_cons.mp h.choose_spec.1 with heq | hmem
            · rcases h with ⟨q, hq, hqid⟩
              rcases List.mem_cons.mp hq with rfl | hmem2
              · exact Or.inl (hqid ▸ hp)
              · exact Or.inr ⟨q, hmem2, hqid⟩
            · rcases h with ⟨q, hq, hqid⟩
              rcases List.mem_cons.mp hq with rfl | hmem2
              · exact Or.inl (hqid ▸ hp)
              · exact Or.inr ⟨q, hmem2, hqid⟩
      · rw [if_neg hp, ih]
        simp only [List.mem_append, List.mem_singleton]
        constructor
        · rintro ((h | h) | h)
          · exact Or.inl h
          · exact Or.inr ⟨p, List.mem_cons_self p t, h.symm⟩
          · rcases h with ⟨q, hq, hqid⟩
            exact Or.inr ⟨q, List.mem_cons_of_mem p hq, hqid⟩
        · rintro (h | h)
          · exact Or.inl (Or.inl h)
          · rcases h with ⟨q, hq, hqid⟩
            rcases List.mem_cons.mp hq with rfl | hmem2
            · exact Or.inl (Or.inr hqid.symm)
            · exact Or.inr ⟨q, hmem2, hqid⟩
  rw [firstSeenKeys, key]
  simp

theorem firstSeenKeys_nodup (l : List (String × Hit)) : (firstSeenKeys l).Nodup := by
  have key : ∀ (l : List (String × Hit)) (ks : List (String × ℚ)), ks.Nodup →
      (l.foldl
        (fun ks p => if chunkIdOf p.2.metadata ∈ ks then ks
          else ks ++ [chunkIdOf p.2.metadata]) ks).Nodup := by
    intro l
    induction l with
    | nil => intro ks h; exact h
    | cons p t ih =>
      intro ks h
      rw [List.foldl_cons]
      by_cases hp : chunkIdOf p.2.metadata ∈ ks
      · rw [if_pos hp]; exact ih ks h
      · rw [if_neg hp]
        apply ih
        rw [List.nodup_append]
        exact ⟨h, List.nodup_singleton _, by simpa using hp⟩
  exact key l [] List.nodup_nil

theorem firstSeenKeys_append_singleton (l : List (String × Hit)) (x : String × Hit) :
    firstSeenKeys (l ++ [x]) =
      if chunkIdOf x.2.metadata ∈ firstSeenKeys l then firstSeenKeys l
      else firstSeenKeys l ++ [chunkIdOf x.2.metadata] := by
  rw [firstSeenKeys, List.foldl_append]
  rfl

theorem scoresFor_append_singleton (cid : String × ℚ) (l : List (String × Hit))
    (x : String × Hit) :
    scoresFor cid (l ++ [x]) =
      scoresFor cid l ++
        (if chunkIdOf x.2.metadata = cid then [1 - x.2.distance] else []) := by
  rw [scoresFor, scoresFor, List.filter_append, List.map_append]
  by_cases h : chunkIdOf x.2.metadata = cid <;> simp [h]

theorem surfaced_mono {kw : String} {cid : String × ℚ} {l : List (String × Hit)}
    (x : String × Hit) (h : surfaced kw cid l) : surfaced kw cid (l ++ [x]) := by
  rcases h with ⟨p, hp, hkid⟩
  exact ⟨p, List.mem_append.mpr (Or.inl hp), hkid⟩

theorem updateAssoc_map_chunk_id (cid : String × ℚ) (r : AggregatedResult)
    (h : r.chunk_id = cid) (acc : List AggregatedResult) :
    (updateAssoc cid r acc).map (·.chunk_id) = acc.map (·.chunk_id) := by
  induction acc with
  | nil => rfl
  | cons y rest ih =>
    rw [updateAssoc]
    by_cases hy : y.chunk_id = cid
    · rw [if_pos hy]
      simp [h, hy]
    · rw [if_neg hy]
      simp [ih]

theorem mem_updateAssoc {cid : String × ℚ} {r x : AggregatedResult}
    {acc : List AggregatedResult} (hnodup : (acc.map (·.chunk_id)).Nodup)
    (hx : x ∈ updateAssoc cid r acc) :
    x = r ∨ (x ∈ acc ∧ x.chunk_id ≠ cid) := by
  induction acc with
  | nil => cases hx
  | cons y rest ih =>
    rw [updateAssoc] at hx
    rw [List.map_cons, List.nodup_cons] at hnodup
    by_cases hy : y.chunk_id = cid
    · rw [if_pos hy] at hx
      rcases List.mem_cons.mp hx with rfl | hmem
      · exact Or.inl rfl
      · right
        refine ⟨List.mem_cons_of_mem y hmem, ?_⟩
        intro hcon
        exact hnodup.1 (by
          rw [← hy] at hcon
          exact hcon ▸ List.mem_map_of_mem (·.chunk_id) hmem)
    · rw [if_neg hy] at hx
      rcases List.mem_cons.mp hx with rfl | hmem
      · exact Or.inr ⟨List.mem_cons_self x rest, hy⟩
      · rcases ih hnodup.2 hmem with h | h
        · exact Or.inl h
        · exact Or.inr ⟨List.mem_cons_of_mem y h.1, h.2⟩

theorem find?_none_chunk_id {cid : String × ℚ} {acc : List AggregatedResult}
    (h : acc.find? (fun r => decide (r.chunk_id = cid)) = none) :
    ∀ r ∈ acc, r.chunk_id ≠ cid := by
  intro r hr
  have := List.find?_eq_none.mp h r hr
  simpa using this

theorem find?_some_chunk_id {cid : String × ℚ} {acc : List AggregatedResult}
    {r : AggregatedResult}
    (h : acc.find? (fun x => decide (x.chunk_id = cid)) = some r) :
    r ∈ acc ∧ r.chunk_id = cid := by
  refine ⟨List.mem_of_find?_eq_some h, ?_⟩
  have := List.find?_some h
  simpa using this

/-- With pairwise-distinct keys, an entry of the dict is determined by its
key. -/
theorem nodup_keys_unique {acc : List AggregatedResult}
    (hnodup : (acc.map (·.chunk_id)).Nodup) {r r0 : AggregatedResult}
    (hr : r ∈ acc) (hr0 : r0 ∈ acc) (hid : r.chunk_id = r0.chunk_id) : r = r0 := by
  induction acc with
  | nil => cases hr
  | cons y rest ih =>
    rw [List.map_cons, List.nodup_cons] at hnodup
    rcases List.mem_cons.mp hr with rfl | hrm
    · rcases List.mem_cons.mp hr0 with rfl | hr0m
      · rfl
      · exact absurd (by rw [hid]; exact List.mem_map_of_mem (·.chunk_id) hr0m) hnodup.1
    · rcases List.mem_cons.mp hr0 with rfl | hr0m
      · exact absurd (by rw [← hid]; exact List.mem_map_of_mem (·.chunk_id) hrm) hnodup.1
      · exact ih hnodup.2 hrm hr0m

theorem accInv_step {l : List (String × Hit)} {acc : List AggregatedResult}
    (inv : AccInv l acc) (x : String × Hit) :
    AccInv (l ++ [x]) (streamStep acc x) := by
  obtain ⟨hkeys, hrec⟩ := inv
  have hnodup : (acc.map (·.chunk_id)).Nodup := hkeys ▸ firstSeenKeys_nodup l
  rw [streamStep, processHit]
  rcases hfind : acc.find? (fun r => decide (r.chunk_id = chunkIdOf x.2.metadata)) with - | r0
  · -- identity unseen: append a fresh record
    simp only [hfind]
    have hne := find?_none_chunk_id hfind
    have hnotmem : chunkIdOf x.2.metadata ∉ firstSeenKeys l := by
      rw [← hkeys]
      intro hcon
      rcases List.mem_map.mp hcon with ⟨r, hr, hid⟩
      exact hne r hr hid
    have hnohit : scoresFor (chunkIdOf x.2.metadata) l = [] := by
      rw [scoresFor]
      rw [List.filter_eq_nil_iff.mpr, List.map_nil]
      intro p hp
      simp only [decide_eq_true_eq]
      intro hcon
      exact hnotmem (mem_firstSeenKeys.mpr ⟨p, hp, hcon⟩)
    constructor
    · rw [List.map_append, hkeys, firstSeenKeys_append_singleton, if_neg hnotmem]
      rfl
    · intro r hr
      rcases List.mem_append.mp hr with hmem | hnew
      · have hid := hne r hmem
        have hsc : scoresFor r.chunk_id (l ++ [x]) = scoresFor r.chunk_id l := by
          rw [scoresFor_append_singleton, if_neg (by
            intro hcon
            exact hid (by rw [← hcon]))]
          simp
        obtain ⟨h1, h2, h3, h4⟩ := hrec r hmem
        exact ⟨hsc ▸ h1, by rw [hsc]; exact h2,
          fun kw hkw => surfaced_mono x (h3 kw hkw), h4⟩
      · have hreq : r = ⟨chunkIdOf x.2.metadata, x.2.doc, x.2.metadata,
            1 - x.2.distance, [x.1]⟩ := by simpa using hnew
        subst hreq
        have hsc : scoresFor (chunkIdOf x.2.metadata) (l ++ [x]) = [1 - x.2.distance] := by
          rw [scoresFor_append_singleton, hnohit, if_pos rfl, List.nil_append]
        refine ⟨by rw [hsc]; exact List.mem_singleton_self _, ?_, ?_, by simp⟩
        · rw [hsc]
          intro s hs
          rw [List.mem_singleton.mp hs]
        · intro kw hkw
          rw [List.mem_singleton.mp hkw]
          exact ⟨x, List.mem_append.mpr (Or.inr (List.mem_singleton_self x)), rfl, rfl⟩
  · -- identity already present
    simp only [hfind]
    obtain ⟨hr0mem, hr0id⟩ := find?_some_chunk_id hfind
    have hseen : chunkIdOf x.2.metadata ∈ firstSeenKeys l := by
      rw [← hkeys]
      exact hr0id ▸ List.mem_map_of_mem (·.chunk_id) hr0mem
    have hkeys2 : firstSeenKeys (l ++ [x]) = firstSeenKeys l := by
      rw [firstSeenKeys_append_singleton, if_pos hseen]
    have hsc_same : ∀ r : AggregatedResult, r.chunk_id ≠ chunkIdOf x.2.metadata →
        scoresFor r.chunk_id (l ++ [x]) = scoresFor r.chunk_id l := by
      intro r hid
      rw [scoresFor_append_singleton, if_neg (by
        intro hcon
        exact hid hcon.symm)]
      simp
    have hsc_new : scoresFor (chunkIdOf x.2.metadata) (l ++ [x]) =
        scoresFor (chunkIdOf x.2.metadata) l ++ [1 - x.2.distance] := by
      rw [scoresFor_append_singleton, if_pos rfl]
    have hsurf_x : surfaced x.1 (chunkIdOf x.2.metadata) (l ++ [x]) :=
      ⟨x, List.mem_append.mpr (Or.inr (List.mem_singleton_self x)), rfl, rfl⟩
    obtain ⟨h01, h02, h03, h04⟩ := hrec r0 hr0mem
    by_cases himp : r0.relevance_score < 1 - x.2.distance
    · -- strictly better score: the whole record is replaced
      rw [if_pos himp]
      constructor
      · exact (updateAssoc_map_chunk_id (chunkIdOf x.2.metadata)
          ⟨chunkIdOf x.2.metadata, x.2.doc, x.2.metadata, 1 - x.2.distance, [x.1]⟩
          rfl acc).trans (hkeys.trans hkeys2.symm)
      · intro r hr
        rcases mem_updateAssoc hnodup hr with rfl | ⟨hmem, hid⟩
        · refine ⟨?_, ?_, ?_, by simp⟩
          · simp only
            rw [hsc_new]
            exact List.mem_append.mpr (Or.inr (List.mem_singleton_self _))
          · simp only
            rw [hsc_new]
            intro s hs
            rcases List.mem_append.mp hs with hs | hs
            · have := h02 s (hr0id ▸ hs)
              linarith
            · rw [List.mem_singleton.mp hs]
          · intro kw hkw
            simp only [List.mem_singleton] at hkw
            subst hkw
            exact hsurf_x
        · obtain ⟨h1, h2, h3, h4⟩ := hrec r hmem
          rw [hsc_same r hid]
          exact ⟨h1, h2, fun kw hkw => surfaced_mono x (h3 kw hkw), h4⟩
    · rw [if_neg himp]
      have hub : ∀ s ∈ scoresFor r0.chunk_id (l ++ [x]), s ≤ r0.relevance_score := by
        rw [hr0id, hsc_new]
        intro s hs
        rcases List.mem_append.mp hs with hs | hs
        · exact h02 s (hr0id ▸ hs)
        · rw [List.mem_singleton.mp hs]
          linarith [not_lt.mp himp]
      have hmem1 : r0.relevance_score ∈ scoresFor r0.chunk_id (l ++ [x]) := by
        rw [hr0id, hsc_new]
        exact List.mem_append.mpr (Or.inl (hr0id ▸ h01))
      by_cases hkwmem : x.1 ∈ r0.matching_keywords
      · -- keyword already recorded: the dict is unchanged
        rw [if_pos hkwmem]
        refine ⟨hkeys.trans hkeys2.symm, ?_⟩
        intro r hr
        by_cases hid : r.chunk_id = chunkIdOf x.2.metadata
        · have hreq : r = r0 := nodup_keys_unique hnodup hr hr0mem (by rw [hid, hr0id])
          subst hreq
          exact ⟨hmem1, hub, fun kw hkw => surfaced_mono x (h03 kw hkw), h04⟩
        · obtain ⟨h1, h2, h3, h4⟩ := hrec r hr
          rw [hsc_same r hid]
          exact ⟨h1, h2, fun kw hkw => surfaced_mono x (h3 kw hkw), h4⟩
      · rw [if_neg hkwmem]
        constructor
        · exact (updateAssoc_map_chunk_id (chunkIdOf x.2.metadata)
            { r0 with matching_keywords := r0.matching_keywords ++ [x.1] }
            hr0id acc).trans (hkeys.trans hkeys2.symm)
        · intro r hr
          rcases mem_updateAssoc hnodup hr with rfl | ⟨hmem, hid⟩
          · refine ⟨hmem1, hub, ?_, by simp⟩
            intro kw hkw
            show surfaced kw r0.chunk_id (l ++ [x])
            rcases List.mem_append.mp hkw with hkw2 | hkw2
            · exact surfaced_mono x (h03 kw hkw2)
            · rw [List.mem_singleton.mp hkw2, hr0id]
              exact hsurf_x
          · obtain ⟨h1, h2, h3, h4⟩ := hrec r hmem
            rw [hsc_same r hid]
            exact ⟨h1, h2, fun kw hkw => surfaced_mono x (h3 kw hkw), h4⟩

theorem accInv_streamFold (l : List (String × Hit)) :
    AccInv l (l.foldl streamStep []) := by
  induction l using List.reverseRecOn with
  | nil =>
    constructor
    · rfl
    · intro r hr
      cases hr
  | append_singleton t x ih =>
    rw [List.foldl_append, List.foldl_cons, List.foldl_nil]
    exact accInv_step ih x

theorem accInv_aggAccum (query : String → List Hit) (keywords : List String) :
    AccInv (hitStream query keywords) (aggAccum query keywords) := by
  rw [aggAccum_eq_streamFold]
  exact accInv_streamFold (hitStream query keywords)

/-! ### Sorting lemmas -/

theorem mem_sortInsert {x r : AggregatedResult} {l : List AggregatedResult} :
    x ∈ sortInsert r l ↔ x = r ∨ x ∈ l := by
  induction l with
  | nil => simp [sortInsert]
  | cons b t ih =>
    rw [sortInsert]
    by_cases h : r.relevance_score < b.relevance_score
    · rw [if_pos h]
      simp only [List.mem_cons, ih]
      exact or_left_comm
    · rw [if_neg h]
      simp only [List.mem_cons]

theorem mem_sortByRelevanceDesc {x : AggregatedResult} {l : List AggregatedResult} :
    x ∈ sortByRelevanceDesc l ↔ x ∈ l := by
  induction l with
  | nil => simp [sortByRelevanceDesc]
  | cons r t ih =>
    rw [sortByRelevanceDesc, mem_sortInsert, ih, List.mem_cons]

theorem sortInsert_pairwise {r : AggregatedResult} {l : List AggregatedResult}
    (h : l.Pairwise (fun a b => b.relevance_score ≤ a.relevance_score)) :
    (sortInsert r l).Pairwise (fun a b => b.relevance_score ≤ a.relevance_score) := by
  induction l with
  | nil => simp [sortInsert]
  | cons b t ih =>
    rw [List.pairwise_cons] at h
    rw [sortInsert]
    by_cases hlt : r.relevance_score < b.relevance_score
    · rw [if_pos hlt]
      rw [List.pairwise_cons]
      constructor
      · intro y hy
        rcases mem_sortInsert.mp hy with rfl | hy
        · exact le_of_lt hlt
        · exact h.1 y hy
      · exact ih h.2
    · rw [if_neg hlt]
      rw [List.pairwise_cons]
      constructor
      · intro y hy
        rcases List.mem_cons.mp hy with rfl | hy
        · exact not_lt.mp hlt
        · exact le_trans (h.1 y hy) (not_lt.mp hlt)
      · exact List.pairwise_cons.mpr h

theorem sortByRelevanceDesc_pairwise (l : List AggregatedResult) :
    (sortByRelevanceDesc l).Pairwise (fun a b => b.relevance_score ≤ a.relevance_score) := by
  induction l with
  | nil => simp [sortByRelevanceDesc]
  | cons r t ih =>
    rw [sortByRelevanceDesc]
    exact sortInsert_pairwise ih

theorem filter_sortInsert (s : ℚ) (r : AggregatedResult) (l : List AggregatedResult) :
    (sortInsert r l).filter (fun x => decide (x.relevance_score = s)) =
      if r.relevance_score = s then
        r :: l.filter (fun x => decide (x.relevance_score = s))
      else l.filter (fun x => decide (x.relevance_score = s)) := by
  induction l with
  | nil =>
    rw [sortInsert]
    by_cases h : r.relevance_score = s <;> simp [h]
  | cons b t ih =>
    rw [sortInsert]
    by_cases hlt : r.relevance_score < b.relevance_score
    · rw [if_pos hlt]
      by_cases hr : r.relevance_score = s
      · have hb : ¬(b.relevance_score = s) := by
          intro hcon
          rw [hr] at hlt
          rw [hcon] at hlt
          exact lt_irrefl s hlt
        simp [List.filter_cons, hb, hr, ih]
      · simp [List.filter_cons, hr, ih]
    · rw [if_neg hlt]
      by_cases hr : r.relevance_score = s
      · simp [List.filter_cons, hr]
      · simp [List.filter_cons, hr]

theorem filter_sortByRelevanceDesc (s : ℚ) (l : List AggregatedResult) :
    (sortByRelevanceDesc l).filter (fun x => decide (x.relevance_score = s)) =
      l.filter (fun x => decide (x.relevance_score = s)) := by
  induction l with
  | nil => rfl
  | cons r t ih =>
    rw [sortByRelevanceDesc, filter_sortInsert, List.filter_cons]
    by_cases hr : r.relevance_score = s
    · rw [if_pos hr, if_pos (by simpa using hr), ih]
    · rw [if_neg hr, if_neg (by simpa using hr), ih]

/-- Evaluating an `aggregate_search_results` call with the collection present
reduces to evaluating the merge-and-sort pipeline. -/
theorem aggregate_ok_of_eval {query : String → List Hit} {keywords : List String}
    {res : List AggregatedResult}
    (h : sortByRelevanceDesc (aggAccum query keywords) = res) :
    aggregate_search_results true query keywords = Except.ok res := by
  rw [aggregate_search_results, if_pos rfl, h]

/-! ### Claim C1 — merge across keywords -/

/-- Counterexample to C1 as stated: keyword "B" surfaces chunk `("v", 0)`
(score 0.0), then keyword "A" surfaces it with a strictly higher score (1.0).
The replacement branch rebuilds the whole record with
`matching_keywords = ["A"]`, discarding "B" although "B"'s query surfaced this
chunk. -/
theorem aggregator_keyword_loss_counterexample :
    aggregate_search_results true qC1 ["B", "A"] = Except.ok [recC1] ∧
      "B" ∉ recC1.matching_keywords :=
  ⟨aggregate_ok_of_eval (by decide), by decide⟩

/-- C1 amended: the final `relevance_score` of each returned record is the
maximum of `1 - distance` over all hits for its identity, in any arrival
order; but `matching_keywords` is only sound, not complete — every listed
keyword surfaced the chunk and the list is non-empty, while keywords seen
before the last strictly-improving hit are discarded (the improving branch
resets the list to `[keyword]`). -/
theorem aggregator_score_max_and_keywords (query : String → List Hit)
    (keywords : List String) (res : List AggregatedResult) (r : AggregatedResult)
    (hok : aggregate_search_results true query keywords = Except.ok res)
    (hr : r ∈ res) :
    r.relevance_score ∈ scoresFor r.chunk_id (hitStream query keywords) ∧
      (∀ s ∈ scoresFor r.chunk_id (hitStream query keywords), s ≤ r.relevance_score) ∧
      (∀ kw ∈ r.matching_keywords, surfaced kw r.chunk_id (hitStream query keywords)) ∧
      r.matching_keywords ≠ [] := by
  have hres : res = sortByRelevanceDesc (aggAccum query keywords) := by
    rw [aggregate_search_results, if_pos rfl] at hok
    exact (Except.ok.inj hok).symm
  have hmem : r ∈ aggAccum query keywords := by
    rw [hres] at hr
    exact mem_sortByRelevanceDesc.mp hr
  exact (accInv_aggAccum query keywords).2 r hmem

/-- Witness for the amended C1 at the concrete `qC1` run. -/
theorem aggregator_score_max_and_keywords_witness :
    recC1.relevance_score ∈ scoresFor recC1.chunk_id (hitStream qC1 ["B", "A"]) ∧
      (∀ s ∈ scoresFor recC1.chunk_id (hitStream qC1 ["B", "A"]), s ≤ recC1.relevance_score) ∧
      (∀ kw ∈ recC1.matching_keywords, surfaced kw recC1.chunk_id (hitStream qC1 ["B", "A"])) ∧
      recC1.matching_keywords ≠ [] :=
  aggregator_score_max_and_keywords qC1 ["B", "A"] [recC1] recC1
    (aggregate_ok_of_eval (by decide)) (by decide)

/-! ### Claim C6 — descending order with first-seen tie-break -/

/-- C6: the returned sequence is sorted by non-increasing `relevance_score`;
results of equal score keep the relative order of the accumulating dict, whose
key order is the first-seen order of the chunk identities in the processed hit
stream (Python dicts keep a key's position on re-assignment and `list.sort` is
stable, also under `reverse=True`). -/
theorem aggregator_sorted_and_stable (query : String → List Hit)
    (keywords : List String) (res : List AggregatedResult)
    (hok : aggregate_search_results true query keywords = Except.ok res) :
    res.Pairwise (fun a b => b.relevance_score ≤ a.relevance_score) ∧
      (∀ s : ℚ, res.filter (fun x => decide (x.relevance_score = s)) =
        (aggAccum query keywords).filter (fun x => decide (x.relevance_score = s))) ∧
      (aggAccum query keywords).map (·.chunk_id) =
        firstSeenKeys (hitStream query keywords) := by
  have hres : res = sortByRelevanceDesc (aggAccum query keywords) := by
    rw [aggregate_search_results, if_pos rfl] at hok
    exact (Except.ok.inj hok).symm
  subst hres
  exact ⟨sortByRelevanceDesc_pairwise _, fun s => filter_sortByRelevanceDesc s _,
    (accInv_aggAccum query keywords).1⟩

/-- Witness for C6 at a concrete run with an exact score tie. -/
theorem aggregator_sorted_and_stable_witness :
    (sortByRelevanceDesc (aggAccum qC6 ["k"])).Pairwise
        (fun a b => b.relevance_score ≤ a.relevance_score) ∧
      (∀ s : ℚ, (sortByRelevanceDesc (aggAccum qC6 ["k"])).filter
          (fun x => decide (x.relevance_score = s)) =
        (aggAccum qC6 ["k"]).filter (fun x => decide (x.relevance_score = s))) ∧
      (aggAccum qC6 ["k"]).map (·.chunk_id) = firstSeenKeys (hitStream qC6 ["k"]) :=
  aggregator_sorted_and_stable qC6 ["k"] (sortByRelevanceDesc (aggAccum qC6 ["k"])) rfl

/-! ### Claim C8 — failure modes -/

/-- C8: a missing collection is a fatal error (the call aborts with the
`RuntimeError` message); a keyword whose query returns no hits contributes
nothing (dropping it leaves the output unchanged); and when every keyword
returns no hits the aggregator returns the empty list, not an error. -/
theorem aggregator_failure_modes (query : String → List Hit)
    (keywords kws1 kws2 : List String) (kw : String) :
    aggregate_search_results false query keywords = Except.error collectionErrorMsg ∧
      ((∀ k ∈ keywords, query k = []) →
        aggregate_search_results true query keywords = Except.ok []) ∧
      (query kw = [] →
        aggregate_search_results true query (kws1 ++ kw :: kws2) =
          aggregate_search_results true query (kws1 ++ kws2)) := by
  refine ⟨rfl, ?_, ?_⟩
  · intro hq
    have hacc : aggAccum query keywords = [] := by
      rw [aggAccum]
      induction keywords with
      | nil => rfl
      | cons k t ih =>
        rw [List.foldl_cons, hq k (List.mem_cons_self k t)]
        exact ih fun k hk => hq k (List.mem_cons_of_mem _ hk)
    rw [aggregate_search_results, if_pos rfl, hacc]
    rfl
  · intro hq
    have hacc : aggAccum query (kws1 ++ kw :: kws2) = aggAccum query (kws1 ++ kws2) := by
      rw [aggAccum, aggAccum, List.foldl_append, List.foldl_append, List.foldl_cons,
        hq, List.foldl_nil]
    rw [aggregate_search_results, aggregate_search_results, if_pos rfl, if_pos rfl, hacc]

/-- Witness for C8 at concrete inputs. -/
theorem aggregator_failure_modes_witness :
    aggregate_search_results false qEmpty ["a"] = Except.error collectionErrorMsg ∧
      aggregate_search_results true qEmpty ["a"] = Except.ok [] ∧
      aggregate_search_results true qEmpty (["a"] ++ "b" :: []) =
        aggregate_search_results true qEmpty (["a"] ++ []) := by
  obtain ⟨h1, h2, h3⟩ := aggregator_failure_modes qEmpty ["a"] ["a"] [] "b"
  exact ⟨h1, h2 (fun k _ => rfl), h3 rfl⟩

/-! ### Claim C9 — relevance score formula and range -/

/-- Counterexample to C9 as stated: a vector-store distance of 2 (cosine
distance ranges up to 2) yields `relevance_score = 1 - 2 = -1`, outside
`[0, 1]`; the code never clamps. -/
theorem relevance_score_range_counterexample :
    aggregate_search_results true qC9 ["k"] = Except.ok [recC9] ∧
      recC9.relevance_score < 0 :=
  ⟨aggregate_ok_of_eval (by decide), by decide⟩

/-- C9 amended: every returned `relevance_score` equals `1 - distance` for
some hit of its identity (namely the best one); the scores lie in `[0, 1]`
only under the additional hypothesis that every reported distance lies in
`[0, 1]`. -/
theorem relevance_score_formula (query : String → List Hit)
    (keywords : List String) (res : List AggregatedResult) (r : AggregatedResult)
    (hok : aggregate_search_results true query keywords = Except.ok res)
    (hr : r ∈ res) :
    (∃ p ∈ hitStream query keywords,
        chunkIdOf p.2.metadata = r.chunk_id ∧ r.relevance_score = 1 - p.2.distance) ∧
      ((∀ p ∈ hitStream query keywords, 0 ≤ p.2.distance ∧ p.2.distance ≤ 1) →
        0 ≤ r.relevance_score ∧ r.relevance_score ≤ 1) := by
  have hres : res = sortByRelevanceDesc (aggAccum query keywords) := by
    rw [aggregate_search_results, if_pos rfl] at hok
    exact (Except.ok.inj hok).symm
  have hmem : r ∈ aggAccum query keywords := by
    rw [hres] at hr
    exact mem_sortByRelevanceDesc.mp hr
  obtain ⟨h1, -, -, -⟩ := (accInv_aggAccum query keywords).2 r hmem
  rw [scoresFor] at h1
  rcases List.mem_map.mp h1 with ⟨p, hp, hpscore⟩
  have hpmem := List.mem_filter.mp hp
  have hpid : chunkIdOf p.2.metadata = r.chunk_id := by
    have := hpmem.2
    simpa using this
  refine ⟨⟨p, hpmem.1, hpid, hpscore.symm⟩, ?_⟩
  intro hbound
  obtain ⟨hd0, hd1⟩ := hbound p hpmem.1
  rw [← hpscore]
  constructor <;> linarith

/-- Witness for the amended C9 at a concrete run with distance 0. -/
theorem relevance_score_formula_witness :
    (∃ p ∈ hitStream qC9W ["k"],
        chunkIdOf p.2.metadata = recC9W.chunk_id ∧
          recC9W.relevance_score = 1 - p.2.distance) ∧
      (0 ≤ recC9W.relevance_score ∧ recC9W.relevance_score ≤ 1) := by
  obtain ⟨h1, h2⟩ := relevance_score_formula qC9W ["k"] [recC9W] recC9W
    (aggregate_ok_of_eval (by decide)) (by decide)
  exact ⟨h1, h2 (by decide)⟩

end Saar

